import Mathlib

/-!
Verification of the filter-to-SQL compiler and insert builders of
`vramework/mysql-typed` (`src/database-utils.ts`), as a shallow embedding.

Conventions of the embedding:
* JS strings are Lean `String`s (character lists); all string-manipulating
  dependencies (`snake-case`, `String.prototype.split`, template literals,
  number formatting) are reimplemented faithfully below.
* A JS value of the library's `ValueTypes` union
  (`string | number | boolean | string[] | Date | null | undefined`) is the
  inductive `Value`.  A `Date` instance is modelled by the string its
  `toISOString`/`toJSON` method yields, which is all the code observes of it.
* `undefined` is `Value.undefined` when it sits in a record slot typed
  `ValueTypes`, and `Option.none` when a whole field of an options object may
  be missing.
* Code that can throw is modelled with `Except`/`Option`.
-/

namespace MysqlTyped

/-! ### Characters and small string utilities -/

/-- The NUL character used internally by the `snake-case` npm package as a
word separator. -/
def nulC : Char := Char.ofNat 0

/-- ASCII alphanumeric test: the character class `[^A-Z0-9]/i` of the
`snake-case` package's strip regexp keeps exactly these characters. -/
def isAlnumA (c : Char) : Bool := c.isUpper || c.isLower || c.isDigit

/-- ASCII lower-casing as `String.prototype.toLowerCase` acts on the
alphanumeric ASCII characters that survive the strip pass (explicit table,
identity elsewhere). -/
def lowerA : Char → Char
  | 'A' => 'a' | 'B' => 'b' | 'C' => 'c' | 'D' => 'd' | 'E' => 'e'
  | 'F' => 'f' | 'G' => 'g' | 'H' => 'h' | 'I' => 'i' | 'J' => 'j'
  | 'K' => 'k' | 'L' => 'l' | 'M' => 'm' | 'N' => 'n' | 'O' => 'o'
  | 'P' => 'p' | 'Q' => 'q' | 'R' => 'r' | 'S' => 's' | 'T' => 't'
  | 'U' => 'u' | 'V' => 'v' | 'W' => 'w' | 'X' => 'x' | 'Y' => 'y'
  | 'Z' => 'z'
  | c => c

/-- `String.prototype.split(sep)` for a one-character separator, on character
lists.  `split` of the empty string is `[""]`, matching JS. -/
def splitOnC (sep : Char) : List Char → List (List Char)
  | [] => [[]]
  | c :: t =>
    match splitOnC sep t with
    | [] => [[]]
    | p :: ps => if c = sep then [] :: p :: ps else (c :: p) :: ps

/-- First pass of the `snake-case` package (`noCase`): the global regexp
replace of `([a-z0-9])([A-Z])` by `$1\0$2`.  The two character classes are
disjoint, so the global replace is the same as inserting a NUL between every
adjacent qualifying pair. -/
def pass1 : List Char → List Char
  | a :: b :: t =>
    if (a.isLower || a.isDigit) && b.isUpper then a :: nulC :: pass1 (b :: t)
    else a :: pass1 (b :: t)
  | l => l

/-- Second pass: the global replace of `([A-Z])([A-Z][a-z])` by `$1\0$2`.
Again equivalent to pairwise insertion because a match's trailing `[a-z]`
cannot begin another match. -/
def pass2 : List Char → List Char
  | a :: b :: c :: t =>
    if a.isUpper && b.isUpper && c.isLower then a :: nulC :: pass2 (b :: c :: t)
    else a :: pass2 (b :: c :: t)
  | l => l

/-- Third pass: the global replace of `[^A-Z0-9]+/i` by `\0` — every maximal
run of non-alphanumeric characters (including previously inserted NULs)
becomes one NUL.  The boolean records whether we are inside such a run. -/
def stripGo : Bool → List Char → List Char
  | _, [] => []
  | inRun, c :: t =>
    if isAlnumA c then c :: stripGo false t
    else if inRun then stripGo true t
    else nulC :: stripGo true t

/-- Trim NULs from both ends (the `start`/`end` index scan of `noCase`). -/
def trimNul (l : List Char) : List Char :=
  ((l.dropWhile (fun c => c = nulC)).reverse.dropWhile (fun c => c = nulC)).reverse

/-- Join word chunks with a separator character (the final
`.split("\0").map(lowerCase).join(delimiter)` of `noCase`). -/
def joinC (sep : Char) : List (List Char) → List Char
  | [] => []
  | [x] => x
  | x :: y :: t => x ++ sep :: joinC sep (y :: t)

/-- The `snakeCase` function of the `snake-case` npm package, pipeline on
character lists. -/
def snakeChars (l : List Char) : List Char :=
  joinC '_' (((splitOnC nulC (trimNul (stripGo false (pass2 (pass1 l)))))).map
    (fun w => w.map lowerA))

/-- `snakeCase` from the `snake-case` npm package. -/
def snakeCase (s : String) : String := ⟨snakeChars s.data⟩

/-- `String.prototype.trim()` (whitespace stripped from both ends). -/
def jsTrim (s : String) : String :=
  ⟨((s.data.dropWhile Char.isWhitespace).reverse.dropWhile
      Char.isWhitespace).reverse⟩

/-- `Array.prototype.join(sep)` on a list of strings. -/
def joinWith (sep : String) : List String → String
  | [] => ""
  | [x] => x
  | x :: y :: t => x ++ sep ++ joinWith sep (y :: t)

/-- Decimal digits of a natural number (JS number stringification for the
non-negative integers the code produces).  Structural on a fuel argument so
that the kernel can evaluate it; `natRepr` supplies sufficient fuel. -/
def natDigitsGo : Nat → Nat → List Char → List Char
  | 0, _, acc => acc
  | fuel + 1, n, acc =>
    let acc' := Char.ofNat (48 + n % 10) :: acc
    if n < 10 then acc' else natDigitsGo fuel (n / 10) acc'

/-- The decimal digit list of `n`. -/
def natDigits (n : Nat) : List Char := natDigitsGo (n + 1) n []

/-- Decimal string of a natural number. -/
def natRepr (n : Nat) : String := ⟨natDigits n⟩

/-- Decimal string of an integer (JS number stringification restricted to
integers). -/
def intRepr : Int → String
  | .ofNat n => natRepr n
  | .negSucc n => "-" ++ natRepr (n + 1)

/-- `JSON.stringify` escaping of one character inside a string literal. -/
def jsonCharEscape (c : Char) : List Char :=
  if c = '"' then ['\\', '"']
  else if c = '\\' then ['\\', '\\']
  else if c = '\n' then ['\\', 'n']
  else if c = '\r' then ['\\', 'r']
  else if c = '\t' then ['\\', 't']
  else if c = Char.ofNat 8 then ['\\', 'b']
  else if c = Char.ofNat 12 then ['\\', 'f']
  else if c.toNat < 32 then
    let hexDigit := fun (n : Nat) =>
      if n < 10 then Char.ofNat (48 + n) else Char.ofNat (87 + n)
    ['\\', 'u', '0', '0', hexDigit (c.toNat / 16), hexDigit (c.toNat % 16)]
  else [c]

/-- `JSON.stringify` of a string value. -/
def jsonString (s : String) : String :=
  "\"" ++ (⟨s.data.flatMap jsonCharEscape⟩ : String) ++ "\""

/-! ### Data model

The filter types come from `@vramework/generic/dist/filter`: a filter
expression is a list of nodes, each either a leaf comparison
`{conditionType?, field, operator, value}` or a group
`{conditionType?, expressions}`. -/

/-- The `AND`/`OR` joiner (`conditionType`). -/
inductive CondType where
  | and
  | or
deriving DecidableEq, Repr

/-- Text of a condition type as it appears in the input objects. -/
def CondType.text : CondType → String
  | .and => "AND"
  | .or => "OR"

/-- Sort order. -/
inductive SortOrder where
  | asc
  | desc
deriving DecidableEq, Repr

/-- Text of a sort order. -/
def SortOrder.text : SortOrder → String
  | .asc => "ASC"
  | .desc => "DESC"

/-- The closed `Operator` tag set of the library's filter model. -/
inductive Op where
  | eq | ne | gt | gte | lt | lte | on | after | before
  | includes | excludes | contains
deriving DecidableEq, Repr

/-- One JS value of the library's `ValueTypes` union.  A `Date` instance is
modelled by its `toISOString`/`toJSON` string, the only thing the code
observes of it. -/
inductive Value where
  | str (s : String)
  | num (n : Int)
  | bool (b : Bool)
  | arr (xs : List String)
  | date (iso : String)
  | null
  | undefined
deriving DecidableEq, Repr

/-- A filter node: a leaf comparison or a parenthesized group.  The source
distinguishes them by the presence of the `expressions` property. -/
inductive FilterNode where
  | leaf (conditionType : Option CondType) (field : String) (operator : Op)
      (value : Value)
  | group (conditionType : Option CondType) (expressions : List FilterNode)

/-- The `sort` member of a `BulkFilter`. -/
structure SortSpec where
  key : String
  order : SortOrder
deriving DecidableEq, Repr

/-- The `BulkFilter` input of `createFilters`. -/
structure BulkFilter where
  filters : Option (List FilterNode) := none
  sort : Option SortSpec := none
  limit : Option Int := none
  offset : Option Int := none
  freeText : Option String := none

/-- The record `createFilters` returns. -/
structure CompiledFilter where
  limit : Int
  offset : Int
  sort : String
  filter : String
  filterValues : List Value
deriving DecidableEq, Repr

/-- One flat token produced by `manageFilters`: a bare `{conditionType}`
object, a `{grouping: '('}` / `{grouping: ')'}` object, or a leaf object
`{table?, operator, field, value}` (leaf objects never carry a
`conditionType`; `manageFilters` pushes that as a separate token). -/
inductive Token where
  | cond (ct : CondType)
  | lparen
  | rparen
  | leafTok (table : Option String) (operator : Op) (field : String)
      (value : Value)
deriving DecidableEq, Repr

/-! ### The filter compiler (`database-utils.ts`) -/

/-- `field.replace(/s$/, '')`: strip one trailing `s` if present. -/
def stripTrailingS (s : String) : String :=
  if s.data.getLast? = some 's' then ⟨s.data.dropLast⟩ else s

/-- `s.split('.')` as a list of strings. -/
def splitDot (s : String) : List String :=
  (splitOnC '.' s.data).map (fun l => (⟨l⟩ : String))

/-- The static `operatorToMysql` map (nine comparison tags; `includes`,
`excludes` and `contains` are absent). -/
def operatorToMysql : Op → Option String
  | .gt => some ">"
  | .gte => some ">="
  | .lt => some "<"
  | .lte => some "<="
  | .eq => some "="
  | .ne => some "!="
  | .on => some "="
  | .after => some ">"
  | .before => some "<"
  | _ => none

/-- The `conditionType` property, carried the same way by both node
shapes. -/
def FilterNode.condType : FilterNode → Option CondType
  | .leaf ct _ _ _ => ct
  | .group ct _ => ct

/-- The tokens a node's `conditionType` contributes (`result.push(\x7b
conditionType \x7d)` when present). -/
def condToks (e : FilterNode) : List Token :=
  match e.condType with
  | some ct => [Token.cond ct]
  | none => []

/-- The token a leaf contributes: a dotted field is split into a
singularized table part and the final path segment, an undotted field is
kept whole. -/
def leafTokOf (field : String) (op : Op) (value : Value) : Token :=
  let parts := splitDot field
  if parts.length = 1 then Token.leafTok none op field value
  else
    Token.leafTok (some (stripTrailingS (parts.headD ""))) op
      (parts.getLastD "") value

/-- `manageFilters`: flatten a filter tree into tokens.  Each node first
contributes its `conditionType` (when present) as a separate token; a group
contributes `(`, its flattened children, `)`; a leaf contributes one leaf
token. -/
def manageFilters : List FilterNode → List Token
  | [] => []
  | e :: rest =>
    condToks e ++
    (match e with
      | .group _ exprs => Token.lparen :: (manageFilters exprs ++ [Token.rparen])
      | .leaf _ field op value => [leafTokOf field op value]) ++
    manageFilters rest
  termination_by l => sizeOf l

/-- JS truthiness of the derived table string: the source guards
`table ? \`"${table}".\` : ''`, so an empty table part is dropped. -/
def tableQual : Option String → String
  | some t => if t = "" then "" else "\"" ++ t ++ "\"."
  | none => ""

/-- The token-to-fragment walk inside `createFilters`: the `.map` over
`cleanFilters` that pushes onto `filterValues` as a side effect, fused with
the subsequent `.filter(v => !!v)`.  `n` is the number of values pushed so
far (the `filterValues.length` the closure reads); skipped tokens contribute
`none` fragments, exactly the `undefined` returns of the source. -/
def render (valueOffset : Nat) : Nat → List Token → List (Option String) × List Value
  | _, [] => ([], [])
  | n, Token.lparen :: rest =>
    let r := render valueOffset n rest
    (some "(" :: r.1, r.2)
  | n, Token.rparen :: rest =>
    let r := render valueOffset n rest
    (some ")" :: r.1, r.2)
  | n, Token.cond ct :: rest =>
    let r := render valueOffset n rest
    (some ct.text :: r.1, r.2)
  | n, Token.leafTok table op field value :: rest =>
    let t := tableQual table
    let column := t ++ "\"" ++ snakeCase field ++ "\""
    if op = .includes ∨ op = .excludes then
      let r := render valueOffset (n + 1) rest
      (some (" $" ++ natRepr (valueOffset + (n + 1)) ++
          (if op = .includes then " = " else " != ") ++ "ANY (" ++ t ++ "\"" ++
          snakeCase field ++ "\")") :: r.1,
        value :: r.2)
    else
      match operatorToMysql op with
      | some sym =>
        let r := render valueOffset (n + 1) rest
        (some (" " ++ column ++ " " ++ sym ++ " $" ++
            natRepr (valueOffset + (n + 1))) :: r.1,
          value :: r.2)
      | none =>
        let r := render valueOffset n rest
        (none :: r.1, r.2)

/-- The `cleanFilters` computation of `createFilters`: ordinary flattening,
or — when `freeText` is non-empty after trimming — flattening of the
original filters with one appended group of `contains` leaves over the
free-text columns (`OR`-joined, first leaf unconditioned; the group itself
carries `AND` exactly when explicit filters exist). -/
def cleanFiltersOf (data : BulkFilter) (freeTextFields : List String) : List Token :=
  match data.freeText with
  | some ft =>
    if jsTrim ft ≠ "" then
      let freeTextFilters := freeTextFields.enum.map (fun p =>
        FilterNode.leaf (if p.1 = 0 then none else some CondType.or) p.2
          Op.contains (Value.str ft))
      let filters :=
        match data.filters with
        | some fs => if fs.length > 0 then fs else []
        | none => []
      let groupCt :=
        match data.filters with
        | some fs => if fs.length ≠ 0 then some CondType.and else none
        | none => none
      manageFilters (filters ++ [FilterNode.group groupCt freeTextFilters])
    else manageFilters (data.filters.getD [])
  | none => manageFilters (data.filters.getD [])

/-- The sort fragment of `createFilters`: note that unlike `manageFilters`
this path quotes the raw first path segment without stripping a trailing `s`,
and does not double-quote the snake-cased field. -/
def sortOf (data : BulkFilter) : String :=
  match data.sort with
  | none => ""
  | some s =>
    let parts := splitDot s.key
    let table :=
      if parts.length > 1 then "\"" ++ parts.headD "" ++ "\"." else ""
    "ORDER BY " ++ table ++ snakeCase (parts.getLastD "") ++ " " ++ s.order.text

/-- JS `x || d` for an optional number: `undefined` and `0` are falsy. -/
def jsOrInt (v : Option Int) (d : Int) : Int :=
  match v with
  | some n => if n = 0 then d else n
  | none => d

/-- The clause-text/parameter assembly of `createFilters` from the flat
token list: render the fragments, drop the `undefined` ones, and emit the
joined clause guarded by `cleanFilters.length > 0` and
`filters.length > 0`. -/
def assembleFilter (toks : List Token) (includeWhere : Bool)
    (valueOffset : Nat) : String × List Value :=
  let rendered := render valueOffset 0 toks
  let frags := rendered.1.filterMap id
  (if toks.length > 0 ∧ frags.length > 0 then
      (if includeWhere then "WHERE " else "") ++ joinWith " " frags
    else "", rendered.2)

/-- `createFilters` of `database-utils.ts`. -/
def createFilters (data : BulkFilter) (freeTextFields : List String := [])
    (includeWhere : Bool := true) (valueOffset : Nat := 0) : CompiledFilter :=
  let assembled := assembleFilter (cleanFiltersOf data freeTextFields)
    includeWhere valueOffset
  { limit := jsOrInt data.limit 1000
    offset := jsOrInt data.offset 0
    sort := sortOf data
    filter := assembled.1
    filterValues := assembled.2 }

/-- `getFilters`: an array input is compiled directly; a plain field/value
record is turned into `eq` leaves, every entry but the first conditioned by
`AND` (`Object.entries` order is insertion order). -/
def getFilters : List FilterNode ⊕ List (String × Value) → CompiledFilter
  | .inl filters => createFilters { filters := some filters }
  | .inr record =>
    createFilters
      { filters := some (record.enum.map (fun p =>
          FilterNode.leaf (if p.1 ≠ 0 then some CondType.and else none) p.2.1
            Op.eq p.2.2)) }

/-! ### Insert builders and value coercion -/

/-- `value === Date` in `transformValues` compares the value against the
`Date` constructor function itself, not via `instanceof`; no inhabitant of
`ValueTypes` is that constructor, so the test is false for every value —
including every actual `Date` instance. -/
def jsIsDateConstructor (_ : Value) : Bool := false

/-- `JSON.stringify` on a `ValueTypes` value (`undefined` stringifies to
`undefined`, modelled as `none`). -/
def jsonStringify : Value → Option String
  | .str s => some (jsonString s)
  | .num n => some (intRepr n)
  | .bool b => some (if b then "true" else "false")
  | .arr xs => some ("[" ++ joinWith "," (xs.map jsonString) ++ "]")
  | .date iso => some (jsonString iso)
  | .null => some "null"
  | .undefined => none

/-- `typeof value === 'number'`. -/
@[simp] def Value.isNum : Value → Bool
  | .num _ => true
  | _ => false

/-- `typeof value === 'string'`. -/
@[simp] def Value.isStr : Value → Bool
  | .str _ => true
  | _ => false

/-- `value === null`. -/
@[simp] def Value.isNull : Value → Bool
  | .null => true
  | _ => false

/-- The per-entry body of `transformValues`: numbers, strings and `null`
pass through (the `value === Date` disjunct never fires, see
`jsIsDateConstructor`); an array under the key `tags` becomes the literal
`\x7b a,b\x7d` encoding; everything else is `JSON.stringify`ed. -/
def transformValue (k : String) (v : Value) : Value :=
  if v.isNum || v.isStr || v.isNull || jsIsDateConstructor v then v
  else
    match v with
    | .arr xs =>
      if k = "tags" then .str ("\x7b " ++ joinWith "," xs ++ "\x7d")
      else .str ("[" ++ joinWith "," (xs.map jsonString) ++ "]")
    | other =>
      match jsonStringify other with
      | some s => .str s
      | none => .undefined

/-- `transformValues`: the `Object.keys(from).reduce` that rebuilds the
record entry by entry (JS object keys are unique and iterate in insertion
order, so this is an entrywise map). -/
def transformValues (row : List (String × Value)) : List (String × Value) :=
  row.map (fun e => (e.1, transformValue e.1 e.2))

/-- `Object.keys(data)` lookup, with a JS-style `undefined`-as-`none` result
for an absent key. -/
def jsGet (data : List (String × Option Value)) (k : String) : Option Value :=
  match data.find? (fun e => e.1 = k) with
  | some e => e.2
  | none => none

/-- `createInsert`: drop keys whose value is `undefined`, snake-case the
rest into the quoted column list, emit one `?` placeholder per kept key and
the values in key order. -/
def createInsert (data : List (String × Option Value)) :
    String × String × List Value :=
  let keys := (data.map (fun e => e.1)).filter (fun k => jsGet data k ≠ none)
  let values := keys.map (fun _ => "?")
  let realValues := keys.map (fun k => (jsGet data k).getD Value.null)
  ("\"" ++ joinWith "\",\"" (keys.map snakeCase) ++ "\"",
    joinWith "," values, realValues)

/-- State threaded through `createBulkInsert`'s `bulk.map`: the running
placeholder counter `i`, the growing key superset, the accumulated
placeholder tuples, and the accumulated per-row value lists. -/
structure BulkState where
  i : Nat
  keys : List String
  tuples : List String
  rows : List (List Value)

/-- One `(` … `)` placeholder tuple: `keys.map(() => $\{i++\})` joined with
commas, for the current superset size. -/
def bulkTuple (i : Nat) (len : Nat) : String :=
  "(" ++ joinWith "," ((List.range len).map (fun j => "$" ++ natRepr (i + j))) ++ ")"

/-- The body of `createBulkInsert`'s `bulk.map` for one row. -/
def bulkStep (st : BulkState) (row : List (String × Value)) : BulkState :=
  let data := transformValues row
  let keys := (data.map (fun e => e.1)).foldl
    (fun ks k => if k ∈ ks then ks else ks ++ [k]) st.keys
  { i := st.i + keys.length
    keys := keys
    tuples := st.tuples ++ [bulkTuple st.i keys.length]
    rows := st.rows ++ [data.map (fun e => e.2)] }

/-- `createBulkInsert`.  The final
`realValues.reduce((r, v) => [...r, ...v])` has no initial accumulator, so
it throws on an empty bulk; the embedding returns `none` there. -/
def createBulkInsert (bulk : List (List (String × Value))) :
    Option (String × String × List Value) :=
  let st := bulk.foldl bulkStep ⟨1, [], [], []⟩
  match st.rows with
  | [] => none
  | v :: vs =>
    some ("\"" ++ joinWith "\",\"" (st.keys.map snakeCase) ++ "\"",
      joinWith "," st.tuples, vs.foldl (fun r w => r ++ w) v)

/-- `exactlyOneResult`: return the single row, otherwise throw the
caller-supplied error value. -/
def exactlyOneResult {α ε : Type} (result : List α) (err : ε) : Except ε α :=
  if h : result.length = 1 then
    .ok (result.get ⟨0, by omega⟩)
  else .error err

/-! ### Measurement helpers for the statements

These definitions are not part of the source; they only give the theorem
statements a way to speak about "the placeholder tokens occurring in the
emitted SQL text" and "the leaves using a recognized operator". -/

/-- A placeholder-token scanner: walk a character list and collect the digit
run of every occurrence of `$` immediately followed by at least one decimal
digit.  The state holds the reversed digit run currently being read after a
`$`. -/
def scanGo : Option (List Char) → List Char → List (List Char)
  | none, [] => []
  | some run, [] => if run = [] then [] else [run.reverse]
  | none, c :: t => if c = '$' then scanGo (some []) t else scanGo none t
  | some run, c :: t =>
    if c.isDigit then scanGo (some (c :: run)) t
    else
      (if run = [] then [] else [run.reverse]) ++
        (if c = '$' then scanGo (some []) t else scanGo none t)

/-- The digit runs of the placeholder tokens of a string, in text order. -/
def scanPh (s : String) : List (List Char) := scanGo none s.data

/-- An operator tag is recognized by the compiler when it is `includes`,
`excludes`, or has an entry in `operatorToMysql`; every other tag's leaf is
dropped. -/
def recognizedB (op : Op) : Bool :=
  op = Op.includes || op = Op.excludes || (operatorToMysql op).isSome

/-- Number of tokens that emit a placeholder and push a parameter value. -/
def countRec (toks : List Token) : Nat :=
  toks.countP fun t =>
    match t with
    | .leafTok _ op _ _ => recognizedB op
    | _ => false

/-- Concatenated placeholder scans of a fragment list. -/
def scanCat (frags : List String) : List (List Char) :=
  (frags.map fun f => scanGo none f.data).flatten

/-- No `$` character occurs in any leaf field of a filter tree (the sole way
a non-placeholder `$` could reach the emitted text is through the unquoted
table part of a dotted field). -/
def nodesNoDollar : List FilterNode → Bool
  | [] => true
  | .leaf _ field _ _ :: rest =>
    field.data.all (fun c => decide (c ≠ '$')) && nodesNoDollar rest
  | .group _ exprs :: rest => nodesNoDollar exprs && nodesNoDollar rest
  termination_by l => sizeOf l

/-- Cleanliness of a token list: the table part of every leaf token whose
operator is recognized is free of `$`. -/
def toksClean (toks : List Token) : Prop :=
  ∀ t ∈ toks,
    match t with
    | .leafTok (some tbl) op _ _ => recognizedB op = true → '$' ∉ tbl.data
    | _ => True

/-! ## Theorems -/

/-- Every processed row appends exactly one value list to the accumulator of
`createBulkInsert`. -/
lemma bulk_foldl_rows_length (bulk : List (List (String × Value)))
    (st : BulkState) :
    ((bulk.foldl bulkStep st).rows).length = st.rows.length + bulk.length := by
  induction bulk generalizing st with
  | nil => simp
  | cons r rest ih =>
    simp only [List.foldl_cons, ih, List.length_cons]
    simp [bulkStep]
    omega

/-- C9: `createBulkInsert` applied to the empty list of rows does not return
a result — its final value-concatenation (`reduce` with no initial
accumulator) fails on the empty accumulator — and it returns a
column-list/placeholder/values triple for every non-empty row list. -/
theorem createBulkInsert_empty_fails :
    createBulkInsert [] = none ∧
    ∀ (r : List (String × Value)) (rest : List (List (String × Value))),
      (createBulkInsert (r :: rest)).isSome = true := by
  refine ⟨rfl, fun r rest => ?_⟩
  unfold createBulkInsert
  have h := bulk_foldl_rows_length (r :: rest) ⟨1, [], [], []⟩
  simp only [List.foldl_cons] at h ⊢
  rcases hr : ((rest.foldl bulkStep (bulkStep ⟨1, [], [], []⟩ r))).rows with _ | ⟨v, vs⟩
  · rw [hr] at h; simp at h
  · simp

/-- C10 counterexample: the `tags` array-literal encoding has no space
before the closing brace — `transformValues` renders `['a','b']` under the
key `tags` as `\x7b a,b\x7d`, not `\x7b a,b \x7d`. -/
theorem transformValue_tags_spacing :
    transformValue "tags" (.arr ["a", "b"]) = .str "\x7b a,b\x7d" ∧
    Value.str "\x7b a,b\x7d" ≠ .str "\x7b a,b \x7d" := by
  exact ⟨rfl, by decide⟩

/-- C10 (amended): the `value === Date` check compares against the `Date`
constructor itself, so a `Date` instance is never passed through as a
scalar: it is replaced by its JSON string encoding, as is every non-`tags`
array; only the key `tags` gets the array-literal `\x7b a,b\x7d`
encoding. -/
theorem transformValue_coercion :
    (∀ k iso : String, transformValue k (.date iso) = .str (jsonString iso)) ∧
    (∀ k iso : String, transformValue k (.date iso) ≠ .date iso) ∧
    (∀ (k : String) (xs : List String), k ≠ "tags" →
      transformValue k (.arr xs) =
        .str ("[" ++ joinWith "," (xs.map jsonString) ++ "]")) ∧
    (∀ xs : List String,
      transformValue "tags" (.arr xs) =
        .str ("\x7b " ++ joinWith "," xs ++ "\x7d")) := by
  refine ⟨fun k iso => rfl, fun k iso => ?_, fun k xs h => ?_, fun xs => rfl⟩
  · simp [transformValue, jsonStringify, jsIsDateConstructor]
  · simp [transformValue, jsIsDateConstructor, h]

/-- Witness for `transformValue_coercion` at concrete inputs. -/
theorem transformValue_coercion_witness :
    transformValue "x" (.date "D") = .str "\"D\"" ∧
    transformValue "x" (.arr ["a", "b"]) = .str "[\"a\",\"b\"]" ∧
    transformValue "tags" (.arr ["a", "b"]) = .str "\x7b a,b\x7d" := by
  refine ⟨?_, ?_, ?_⟩
  · have h := transformValue_coercion.1 "x" "D"
    simpa [jsonString] using h
  · have h := transformValue_coercion.2.2.1 "x" ["a", "b"] (by decide)
    simpa [jsonString, joinWith] using h
  · have h := transformValue_coercion.2.2.2 ["a", "b"]
    simpa [joinWith] using h

/-- C7 counterexample: a supplied `limit` of `0` is not returned as `0` —
the `||` defaulting treats it as falsy and yields `1000`. -/
theorem createFilters_limit_zero_counterexample :
    (createFilters { limit := some 0 } [] true 0).limit = 1000 ∧
    (1000 : Int) ≠ 0 := by
  exact ⟨rfl, by decide⟩

/-- C7 (amended): `createFilters` applies JS `||` defaulting: `limit` is the
supplied limit when it is present and non-zero and `1000` otherwise (absent
or `0`); `offset` is the supplied offset when present and non-zero and `0`
otherwise — so a supplied offset of `0` still comes back as `0`, but a
supplied limit of `0` comes back as `1000`. -/
theorem createFilters_limit_offset_defaults (data : BulkFilter)
    (fts : List String) (iw : Bool) (N : Nat) :
    ((data.limit = none ∨ data.limit = some 0) →
      (createFilters data fts iw N).limit = 1000) ∧
    (∀ n : Int, n ≠ 0 → data.limit = some n →
      (createFilters data fts iw N).limit = n) ∧
    ((data.offset = none ∨ data.offset = some 0) →
      (createFilters data fts iw N).offset = 0) ∧
    (∀ n : Int, n ≠ 0 → data.offset = some n →
      (createFilters data fts iw N).offset = n) := by
  have hl : (createFilters data fts iw N).limit = jsOrInt data.limit 1000 := rfl
  have ho : (createFilters data fts iw N).offset = jsOrInt data.offset 0 := rfl
  refine ⟨fun h => ?_, fun n hn h => ?_, fun h => ?_, fun n hn h => ?_⟩
  · rcases h with h | h <;> simp [hl, h, jsOrInt]
  · simp [hl, h, jsOrInt, hn]
  · rcases h with h | h <;> simp [ho, h, jsOrInt]
  · simp [ho, h, jsOrInt, hn]

/-- Witness for `createFilters_limit_offset_defaults`. -/
theorem createFilters_limit_offset_defaults_witness :
    (createFilters { limit := some 5, offset := some 0 } [] true 0).limit = 5 ∧
    (createFilters { limit := some 5, offset := some 0 } [] true 0).offset = 0 :=
  ⟨(createFilters_limit_offset_defaults _ _ _ _).2.1 5 (by decide) rfl,
    (createFilters_limit_offset_defaults _ _ _ _).2.2.1 (Or.inr rfl)⟩

/-- `jsGet` on the head key yields the head value. -/
lemma jsGet_cons_self (e : String × Option Value)
    (rest : List (String × Option Value)) : jsGet (e :: rest) e.1 = e.2 := by
  simp [jsGet, List.find?_cons_of_pos]

/-- `jsGet` skips an entry with a different key. -/
lemma jsGet_cons_of_ne (e : String × Option Value)
    (rest : List (String × Option Value)) (k : String) (h : ¬k = e.1) :
    jsGet (e :: rest) k = jsGet rest k := by
  have : ¬(e.1 = k) := fun hh => h hh.symm
  simp [jsGet, List.find?_cons_of_neg, this]

/-- Under unique keys, the key-then-lookup pipeline of `createInsert` agrees
with filtering the entry list directly. -/
lemma createInsert_keys_values (data : List (String × Option Value))
    (h : (data.map (fun e => e.1)).Nodup) :
    ((data.map (fun e => e.1)).filter (fun k => jsGet data k ≠ none)
        = (data.filter (fun e => e.2 ≠ none)).map (fun e => e.1)) ∧
    (((data.map (fun e => e.1)).filter (fun k => jsGet data k ≠ none)).map
          (fun k => (jsGet data k).getD Value.null)
        = (data.filter (fun e => e.2 ≠ none)).filterMap (fun e => e.2)) := by
  induction data with
  | nil => simp
  | cons e rest ih =>
    simp only [List.map_cons, List.nodup_cons] at h
    obtain ⟨hne, hnd⟩ := h
    obtain ⟨ih1, ih2⟩ := ih hnd
    have hk : ∀ k ∈ rest.map (fun e => e.1), jsGet (e :: rest) k = jsGet rest k := by
      intro k hkm
      exact jsGet_cons_of_ne _ _ _ (fun hh => hne (hh ▸ hkm))
    have hcongr : (rest.map (fun e => e.1)).filter
          (fun k => decide (jsGet (e :: rest) k ≠ none))
        = (rest.map (fun e => e.1)).filter
          (fun k => decide (jsGet rest k ≠ none)) := by
      apply List.filter_congr
      intro k hkm
      rw [hk k hkm]
    have hmapc : ((rest.map (fun e => e.1)).filter
            (fun k => decide (jsGet rest k ≠ none))).map
          (fun k => (jsGet (e :: rest) k).getD Value.null)
        = ((rest.map (fun e => e.1)).filter
            (fun k => decide (jsGet rest k ≠ none))).map
          (fun k => (jsGet rest k).getD Value.null) := by
      apply List.map_congr_left
      intro k hkm
      rw [hk k (List.mem_of_mem_filter hkm)]
    constructor
    · show (e.1 :: rest.map (fun e => e.1)).filter
          (fun k => decide (jsGet (e :: rest) k ≠ none)) = _
      rw [List.filter_cons, hcongr, ih1]
      rcases he : e.2 with _ | v
      · simp [jsGet_cons_self, he, List.filter_cons]
      · simp [jsGet_cons_self, he, List.filter_cons]
    · show ((e.1 :: rest.map (fun e => e.1)).filter
            (fun k => decide (jsGet (e :: rest) k ≠ none))).map
          (fun k => (jsGet (e :: rest) k).getD Value.null) = _
      rw [List.filter_cons, hcongr]
      rcases he : e.2 with _ | v
      · simp only [jsGet_cons_self, he]
        rw [if_neg (by simp)]
        rw [hmapc, ih2]
        simp [List.filter_cons, he]
      · simp only [jsGet_cons_self, he]
        rw [if_pos (by simp)]
        simp only [List.map_cons, jsGet_cons_self, he]
        rw [hmapc, ih2]
        simp [List.filter_cons, he]

/-- C6: `createInsert` drops the keys whose value is unset, snake-cases the
remaining keys into the quoted column list in their original order, emits
one `?` placeholder per remaining key, and returns the values in the same
order; in particular on `\x7bname:'Bob', type:'dog', owner: undefined\x7d`
it yields column list `"name","type"`, two placeholders and values
`['Bob','dog']`. -/
theorem createInsert_spec (data : List (String × Option Value))
    (h : (data.map (fun e => e.1)).Nodup) :
    (createInsert data =
      ("\"" ++ joinWith "\",\""
          ((data.filter (fun e => e.2 ≠ none)).map (fun e => snakeCase e.1)) ++
        "\"",
        joinWith "," ((data.filter (fun e => e.2 ≠ none)).map (fun _ => "?")),
        (data.filter (fun e => e.2 ≠ none)).filterMap (fun e => e.2))) ∧
    createInsert [("name", some (Value.str "Bob")), ("type", some (Value.str "dog")),
        ("owner", none)] =
      ("\"name\",\"type\"", "?,?", [Value.str "Bob", Value.str "dog"]) := by
  obtain ⟨h1, h2⟩ := createInsert_keys_values data h
  constructor
  · show (_, _, _) = (_, _, _)
    rw [h2, h1]
    simp [List.map_map, Function.comp_def, List.map_const']
  · decide

/-- Witness for `createInsert_spec` at a concrete input with unique keys. -/
theorem createInsert_spec_witness :
    createInsert [("ownerId", some (Value.str "u1")), ("petName", none)] =
      ("\"owner_id\"", "?", [Value.str "u1"]) := by
  have h := (createInsert_spec
    [("ownerId", some (Value.str "u1")), ("petName", none)] (by decide)).1
  rw [h]
  decide

/-- `splitOnC` never returns the empty list. -/
lemma splitOnC_ne_nil (sep : Char) (l : List Char) : splitOnC sep l ≠ [] := by
  cases l with
  | nil => simp [splitOnC]
  | cons c t =>
    rcases h : splitOnC sep t with _ | ⟨p, ps⟩
    · simp [splitOnC, h]
    · simp only [splitOnC, h]
      split <;> simp

/-- `splitOnC` on a separator-free list is the singleton of that list. -/
lemma splitOnC_not_mem (sep : Char) (l : List Char) (h : sep ∉ l) :
    splitOnC sep l = [l] := by
  induction l with
  | nil => rfl
  | cons c t ih =>
    simp only [List.mem_cons, not_or] at h
    rw [splitOnC, ih h.2]
    simp [Ne.symm h.1]

/-- `splitOnC` splits at the first separator. -/
lemma splitOnC_append (sep : Char) (a b : List Char) (ha : sep ∉ a) :
    splitOnC sep (a ++ sep :: b) = a :: splitOnC sep b := by
  induction a with
  | nil =>
    rcases h : splitOnC sep b with _ | ⟨p, ps⟩
    · exact absurd h (splitOnC_ne_nil sep b)
    · simp [splitOnC, h]
  | cons c a' ih =>
    simp only [List.mem_cons, not_or] at ha
    simp only [List.cons_append]
    rw [splitOnC, ih ha.2]
    simp [Ne.symm ha.1]

/-- C8 counterexample: the sort path does not singularize the table
qualifier — the filter path strips a trailing `s` but `sort` quotes the
first path segment verbatim. -/
theorem createFilters_sort_no_singularization :
    (createFilters { sort := some ⟨"pets.ownerId", SortOrder.asc⟩ } [] true 0).sort
        = "ORDER BY \"pets\".owner_id ASC" ∧
    "ORDER BY \"pets\".owner_id ASC" ≠ "ORDER BY \"pet\".owner_id ASC" := by
  exact ⟨rfl, by decide⟩

/-- C8 (amended): for a sort key `table.field` the sort clause quotes the
table qualifier verbatim (no trailing-`s` stripping, unlike the filter
path of §4.1) and snake-cases the field without double quotes, yielding
`ORDER BY "table".snake_field ASC|DESC`; an absent sort yields the empty
sort clause. -/
theorem createFilters_sort_clause (t f : String) (ord : SortOrder)
    (data : BulkFilter) (fts : List String) (iw : Bool) (N : Nat)
    (ht : '.' ∉ t.data) (hf : '.' ∉ f.data) :
    (data.sort = some ⟨t ++ "." ++ f, ord⟩ →
      (createFilters data fts iw N).sort =
        "ORDER BY " ++ "\"" ++ t ++ "\"." ++ snakeCase f ++ " " ++ ord.text) ∧
    (data.sort = none → (createFilters data fts iw N).sort = "") := by
  have hs : (createFilters data fts iw N).sort = sortOf data := rfl
  constructor
  · intro h
    rw [hs]
    unfold sortOf
    rw [h]
    dsimp only
    have hdata : (t ++ "." ++ f).data = t.data ++ '.' :: f.data := by
      rw [String.data_append, String.data_append]
      simp
    have hsplit : splitDot (t ++ "." ++ f) = [t, f] := by
      unfold splitDot
      rw [hdata, splitOnC_append _ _ _ ht, splitOnC_not_mem _ _ hf]
      rfl
    rw [hsplit]
    simp only [List.length_cons, List.length_singleton, List.headD_cons,
      List.getLastD_cons]
    rw [if_pos (by omega)]
    simp only [List.getLastD, String.append_assoc]
  · intro h
    rw [hs]
    unfold sortOf
    rw [h]

/-- Witness for `createFilters_sort_clause`. -/
theorem createFilters_sort_clause_witness :
    (createFilters { sort := some ⟨"pets.ownerId", SortOrder.asc⟩ } [] true 0).sort
        = "ORDER BY \"pets\".owner_id ASC" ∧
    (createFilters ({} : BulkFilter) [] true 0).sort = "" := by
  constructor
  · have h := (createFilters_sort_clause "pets" "ownerId" SortOrder.asc
      { sort := some ⟨"pets.ownerId", SortOrder.asc⟩ } [] true 0
      (by decide) (by decide)).1 rfl
    rw [h]
    decide
  · exact (createFilters_sort_clause "x" "y" SortOrder.asc {} [] true 0
      (by decide) (by decide)).2 rfl

/-- C2: evaluation of the code at the free-text input.  The source has no
branch for the `contains` operator — it is neither in `operatorToMysql` nor
special-cased like `includes`/`excludes` — so both free-text leaves are
dropped, no parameter value is pushed, and the emitted clause is the
syntactically invalid `WHERE ( OR )` instead of a pair of `contains`
comparisons with two `'bob'` parameters. -/
theorem createFilters_freeText_drops_contains :
    createFilters { freeText := some "bob" } ["name", "notes"] true 0 =
      { limit := 1000, offset := 0, sort := "", filter := "WHERE ( OR )",
        filterValues := [] } := by
  have h : cleanFiltersOf { freeText := some "bob" } ["name", "notes"] =
      [Token.lparen, Token.leafTok none Op.contains "name" (Value.str "bob"),
        Token.cond CondType.or,
        Token.leafTok none Op.contains "notes" (Value.str "bob"),
        Token.rparen] := by
    simp [cleanFiltersOf, manageFilters, condToks, leafTokOf, FilterNode.condType,
      splitDot, splitOnC, List.enum]
    decide
  simp only [createFilters, h]
  decide

/-- C3 counterexample: the compiled text for the plain map `\x7bid:'abc'\x7d`
is not `WHERE "id" = $1` — every leaf fragment starts with the empty
condition-type slot of the source's template literal, leaving a double
space after `WHERE`. -/
theorem getFilters_exact_text_counterexample :
    (getFilters (.inr [("id", Value.str "abc")])).filter = "WHERE  \"id\" = $1" ∧
    "WHERE  \"id\" = $1" ≠ "WHERE \"id\" = $1" := by
  constructor
  · have h : cleanFiltersOf
        { filters := some [FilterNode.leaf none "id" Op.eq (Value.str "abc")] } [] =
        [Token.leafTok none Op.eq "id" (Value.str "abc")] := by
      simp [cleanFiltersOf, manageFilters, condToks, leafTokOf, FilterNode.condType,
        splitDot, splitOnC]
    simp only [getFilters, createFilters]
    norm_num [List.enum, h]
    decide
  · decide

/-- C3 (amended): the two compilations produce exactly the claimed
parameter sequences and placeholder numbering, but the clause texts carry a
double space after `WHERE` and after `AND` (the leaf template's empty
condition-type slot): `WHERE  "id" = $1` and
`WHERE  "owner" = $1 AND  "type" = $2`. -/
theorem getFilters_compilation :
    ((getFilters (.inr [("id", Value.str "abc")])).filter = "WHERE  \"id\" = $1" ∧
      (getFilters (.inr [("id", Value.str "abc")])).filterValues =
        [Value.str "abc"]) ∧
    ((getFilters (.inl [FilterNode.leaf none "owner" Op.eq (Value.str "u1"),
          FilterNode.leaf (some CondType.and) "type" Op.eq (Value.str "dog")])).filter
        = "WHERE  \"owner\" = $1 AND  \"type\" = $2" ∧
      (getFilters (.inl [FilterNode.leaf none "owner" Op.eq (Value.str "u1"),
          FilterNode.leaf (some CondType.and) "type" Op.eq
            (Value.str "dog")])).filterValues =
        [Value.str "u1", Value.str "dog"]) := by
  have h1 : cleanFiltersOf
      { filters := some [FilterNode.leaf none "id" Op.eq (Value.str "abc")] } [] =
      [Token.leafTok none Op.eq "id" (Value.str "abc")] := by
    simp [cleanFiltersOf, manageFilters, condToks, leafTokOf, FilterNode.condType,
      splitDot, splitOnC]
  have h2 : cleanFiltersOf
      { filters := some [FilterNode.leaf none "owner" Op.eq (Value.str "u1"),
          FilterNode.leaf (some CondType.and) "type" Op.eq (Value.str "dog")] } [] =
      [Token.leafTok none Op.eq "owner" (Value.str "u1"),
        Token.cond CondType.and,
        Token.leafTok none Op.eq "type" (Value.str "dog")] := by
    simp [cleanFiltersOf, manageFilters, condToks, leafTokOf, FilterNode.condType,
      splitDot, splitOnC]
  refine ⟨⟨?_, ?_⟩, ⟨?_, ?_⟩⟩ <;>
    (first
      | (simp only [getFilters, createFilters]
         norm_num [List.enum, h1]
         decide)
      | (simp only [getFilters, createFilters, h2]
         decide))

/-- The unfolded form of `assembleFilter`. -/
lemma assembleFilter_eq (toks : List Token) (iw : Bool) (N : Nat) :
    assembleFilter toks iw N =
      (if toks.length > 0 ∧ ((render N 0 toks).1.filterMap id).length > 0 then
          (if iw then "WHERE " else "") ++
            joinWith " " ((render N 0 toks).1.filterMap id)
        else "", (render N 0 toks).2) := rfl

/-- `manageFilters` distributes over list append: each sibling contributes
its tokens independently. -/
lemma manageFilters_append (a b : List FilterNode) :
    manageFilters (a ++ b) = manageFilters a ++ manageFilters b := by
  induction a with
  | nil => simp [manageFilters]
  | cons e rest ih =>
    rw [List.cons_append]
    cases e <;> simp [manageFilters, ih]

/-- Every token yields exactly one (possibly `undefined`) fragment. -/
lemma render_fst_length (off n : Nat) (toks : List Token) :
    (render off n toks).1.length = toks.length := by
  induction toks generalizing n with
  | nil => simp [render]
  | cons t rest ih =>
    cases t with
    | cond ct => simp [render, ih]
    | lparen => simp [render, ih]
    | rparen => simp [render, ih]
    | leafTok tbl op f v =>
      by_cases h : op = Op.includes ∨ op = Op.excludes
      · simp [render, h, ih]
      · rcases hm : operatorToMysql op with _ | sym <;> simp [render, h, hm, ih]

/-- `render` over an append: the second part continues with the value count
reached by the first. -/
lemma render_append (off n : Nat) (xs ys : List Token) :
    render off n (xs ++ ys) =
      ((render off n xs).1 ++
          (render off (n + (render off n xs).2.length) ys).1,
        (render off n xs).2 ++
          (render off (n + (render off n xs).2.length) ys).2) := by
  induction xs generalizing n with
  | nil => simp [render]
  | cons t rest ih =>
    cases t with
    | cond ct => simp [render, ih]
    | lparen => simp [render, ih]
    | rparen => simp [render, ih]
    | leafTok tbl op f v =>
      by_cases h : op = Op.includes ∨ op = Op.excludes
      · rcases h with rfl | rfl <;>
          (rw [List.cons_append]
           simp only [render]
           rw [ih (n + 1)]
           simp [Nat.add_comm, Nat.add_left_comm, Nat.add_assoc])
      · rcases hm : operatorToMysql op with _ | sym
        · simp [render, h, hm, ih]
        · rw [List.cons_append]
          simp only [render]
          rw [if_neg h, if_neg h, hm]
          simp only [Option.some.injEq]
          rw [ih (n + 1)]
          simp [Nat.add_comm, Nat.add_left_comm, Nat.add_assoc]

/-- An unrecognized operator tag means: not `includes`, not `excludes`, no
`operatorToMysql` entry. -/
lemma recognizedB_false (op : Op) (hop : recognizedB op = false) :
    ¬(op = Op.includes ∨ op = Op.excludes) ∧ operatorToMysql op = none := by
  revert hop
  cases op <;> decide

/-- `filterMap id` never lengthens a list. -/
lemma filterMap_id_length_le (frags : List (Option String)) :
    (frags.filterMap id).length ≤ frags.length := by
  induction frags with
  | nil => simp
  | cons x xs ih => cases x <;> simp [List.filterMap_cons] <;> omega

/-- Dropping a leaf token with an unrecognized operator from anywhere in the
token list leaves the assembled clause text and parameter sequence
unchanged. -/
lemma assembleFilter_skip (a b : List Token) (tbl : Option String) (op : Op)
    (f : String) (v : Value) (iw : Bool) (N : Nat)
    (hop : recognizedB op = false) :
    assembleFilter (a ++ Token.leafTok tbl op f v :: b) iw N =
      assembleFilter (a ++ b) iw N := by
  obtain ⟨hne, hnone⟩ := recognizedB_false op hop
  have hstep : ∀ m, render N m (Token.leafTok tbl op f v :: b) =
      ((none : Option String) :: (render N m b).1, (render N m b).2) := by
    intro m
    simp [render, hne, hnone]
  have hra := render_append N 0 a (Token.leafTok tbl op f v :: b)
  rw [hstep] at hra
  have hrb := render_append N 0 a b
  rw [assembleFilter_eq, assembleFilter_eq, hra, hrb]
  dsimp only
  have hfm : List.filterMap id
        ((render N 0 a).1 ++ (none : Option String) ::
          (render N (0 + (render N 0 a).2.length) b).1) =
      List.filterMap id
        ((render N 0 a).1 ++ (render N (0 + (render N 0 a).2.length) b).1) := by
    simp
  rw [hfm]
  rcases Nat.eq_zero_or_pos (a.length + b.length) with hab | hab
  · have ha : a = [] := List.eq_nil_of_length_eq_zero (by omega)
    have hb : b = [] := List.eq_nil_of_length_eq_zero (by omega)
    subst ha; subst hb
    simp [render]
  · have hiff : ((a ++ Token.leafTok tbl op f v :: b).length > 0 ∧
        (List.filterMap id
          ((render N 0 a).1 ++
            (render N (0 + (render N 0 a).2.length) b).1)).length > 0) ↔
        ((a ++ b).length > 0 ∧
          (List.filterMap id
            ((render N 0 a).1 ++
              (render N (0 + (render N 0 a).2.length) b).1)).length > 0) := by
      constructor
      · intro hc
        exact ⟨by simp; omega, hc.2⟩
      · intro hc
        exact ⟨by simp, hc.2⟩
    rw [if_congr hiff rfl rfl]

/-- C4 counterexample: a leaf with an unrecognized operator is not erased
without trace — its separate `conditionType` token survives, leaving a
dangling `AND`; and under free-text expansion, removing the sole explicit
filter also flips the synthetic group's `conditionType`.  Both compiled
outputs therefore differ from the node-removed compilations. -/
theorem createFilters_unrecognized_counterexample :
    (createFilters { filters := some [FilterNode.leaf none "a" Op.eq (Value.str "v"),
        FilterNode.leaf (some CondType.and) "b" Op.contains (Value.str "w")] }
        [] true 0).filter = "WHERE  \"a\" = $1 AND" ∧
    (createFilters { filters := some [FilterNode.leaf none "a" Op.eq (Value.str "v")] }
        [] true 0).filter = "WHERE  \"a\" = $1" ∧
    "WHERE  \"a\" = $1 AND" ≠ "WHERE  \"a\" = $1" ∧
    (createFilters { filters := some [FilterNode.leaf none "a" Op.contains (Value.str "w")]
                   , freeText := some "bob" } ["n"] true 0).filter = "WHERE AND ( )" ∧
    (createFilters { filters := some ([] : List FilterNode)
                   , freeText := some "bob" } ["n"] true 0).filter = "WHERE ( )" ∧
    "WHERE AND ( )" ≠ "WHERE ( )" := by
  have h1 : cleanFiltersOf
      { filters := some [FilterNode.leaf none "a" Op.eq (Value.str "v"),
          FilterNode.leaf (some CondType.and) "b" Op.contains (Value.str "w")] } [] =
      [Token.leafTok none Op.eq "a" (Value.str "v"), Token.cond CondType.and,
        Token.leafTok none Op.contains "b" (Value.str "w")] := by
    simp [cleanFiltersOf, manageFilters, condToks, leafTokOf, FilterNode.condType,
      splitDot, splitOnC]
  have h2 : cleanFiltersOf
      { filters := some [FilterNode.leaf none "a" Op.eq (Value.str "v")] } [] =
      [Token.leafTok none Op.eq "a" (Value.str "v")] := by
    simp [cleanFiltersOf, manageFilters, condToks, leafTokOf, FilterNode.condType,
      splitDot, splitOnC]
  have h3 : cleanFiltersOf
      { filters := some [FilterNode.leaf none "a" Op.contains (Value.str "w")],
        freeText := some "bob" } ["n"] =
      [Token.leafTok none Op.contains "a" (Value.str "w"), Token.cond CondType.and,
        Token.lparen, Token.leafTok none Op.contains "n" (Value.str "bob"),
        Token.rparen] := by
    simp [cleanFiltersOf, manageFilters, condToks, leafTokOf, FilterNode.condType,
      splitDot, splitOnC, List.enum]
    decide
  have h4 : cleanFiltersOf
      { filters := some ([] : List FilterNode), freeText := some "bob" } ["n"] =
      [Token.lparen, Token.leafTok none Op.contains "n" (Value.str "bob"),
        Token.rparen] := by
    simp [cleanFiltersOf, manageFilters, condToks, leafTokOf, FilterNode.condType,
      splitDot, splitOnC, List.enum]
    decide
  refine ⟨?_, ?_, by decide, ?_, ?_, by decide⟩
  · simp only [createFilters, h1]; decide
  · simp only [createFilters, h2]; decide
  · simp only [createFilters, h3]; decide
  · simp only [createFilters, h4]; decide

/-- C4 (amended): a leaf whose operator is outside the recognized set emits
no comparison text and no parameter value; when the node carries no
`conditionType` and either no free-text expansion is active or the list
minus the node is still non-empty, the compiled output equals the
compilation with that node removed.  (With a `conditionType` the bare
`AND`/`OR` token survives, and removing the sole explicit filter under
free-text expansion flips the synthetic group's `conditionType` — see the
counterexample.) -/
theorem createFilters_unrecognized_leaf_skipped
    (l1 l2 : List FilterNode) (field : String) (op : Op) (v : Value)
    (s : Option SortSpec) (lim offv : Option Int) (ft : Option String)
    (fts : List String) (iw : Bool) (N : Nat)
    (hop : recognizedB op = false)
    (hft : ft = none ∨ l1 ++ l2 ≠ []) :
    createFilters { filters := some (l1 ++ FilterNode.leaf none field op v :: l2)
                  , sort := s, limit := lim, offset := offv, freeText := ft }
        fts iw N =
      createFilters { filters := some (l1 ++ l2), sort := s, limit := lim
                    , offset := offv, freeText := ft } fts iw N := by
  obtain ⟨tbl, f', hlt⟩ : ∃ tbl f', leafTokOf field op v = Token.leafTok tbl op f' v := by
    unfold leafTokOf
    by_cases hp : (splitDot field).length = 1
    · exact ⟨none, field, by simp [hp]⟩
    · exact ⟨some (stripTrailingS ((splitDot field).headD "")),
        (splitDot field).getLastD "", by simp [hp]⟩
  have hmid : ∀ X : List FilterNode,
      manageFilters (l1 ++ FilterNode.leaf none field op v :: X) =
        manageFilters l1 ++ Token.leafTok tbl op f' v :: manageFilters X := by
    intro X
    rw [manageFilters_append, manageFilters]
    simp [condToks, FilterNode.condType, hlt]
  have hskip : ∀ X : List FilterNode,
      assembleFilter
          (manageFilters (l1 ++ FilterNode.leaf none field op v :: X)) iw N =
        assembleFilter (manageFilters (l1 ++ X)) iw N := by
    intro X
    rw [hmid X, assembleFilter_skip _ _ _ _ _ _ _ _ hop, ← manageFilters_append]
  have key : assembleFilter (cleanFiltersOf
        { filters := some (l1 ++ FilterNode.leaf none field op v :: l2),
          sort := s, limit := lim, offset := offv, freeText := ft } fts) iw N =
      assembleFilter (cleanFiltersOf
        { filters := some (l1 ++ l2), sort := s, limit := lim, offset := offv,
          freeText := ft } fts) iw N := by
    rcases ft with _ | ftv
    · simp only [cleanFiltersOf, Option.getD_some]
      exact hskip l2
    · have hl : l1 ++ l2 ≠ [] := by
        rcases hft with h | h
        · exact absurd h (by simp)
        · exact h
      by_cases htrim : jsTrim ftv = ""
      · simp only [cleanFiltersOf, htrim, ne_eq, not_true_eq_false, if_false,
          Option.getD_some]
        exact hskip l2
      · have h1 : (l1 ++ FilterNode.leaf none field op v :: l2).length > 0 := by
          simp
        have h2 : (l1 ++ l2).length > 0 := List.length_pos.mpr hl
        simp only [cleanFiltersOf, htrim, ne_eq, not_false_eq_true, if_true,
          if_pos h1, if_pos h2]
        rw [if_pos (by omega), if_pos (by omega)]
        have hassoc : (l1 ++ FilterNode.leaf none field op v :: l2) ++
            [FilterNode.group (some CondType.and)
              (fts.enum.map (fun p => FilterNode.leaf
                (if p.1 = 0 then none else some CondType.or) p.2 Op.contains
                (Value.str ftv)))] =
            l1 ++ FilterNode.leaf none field op v ::
              (l2 ++ [FilterNode.group (some CondType.and)
                (fts.enum.map (fun p => FilterNode.leaf
                  (if p.1 = 0 then none else some CondType.or) p.2 Op.contains
                  (Value.str ftv)))]) := by
          simp
        rw [hassoc, List.append_assoc]
        exact hskip _
  simp only [createFilters]
  rw [key]
  rfl

/-- Witness for `createFilters_unrecognized_leaf_skipped` at a concrete
input. -/
theorem createFilters_unrecognized_leaf_skipped_witness :
    createFilters { filters := some [FilterNode.leaf none "a" Op.eq (Value.str "v"),
        FilterNode.leaf none "b" Op.contains (Value.str "w")] } [] true 0 =
      createFilters { filters := some [FilterNode.leaf none "a" Op.eq (Value.str "v")] }
        [] true 0 := by
  have h := createFilters_unrecognized_leaf_skipped
    [FilterNode.leaf none "a" Op.eq (Value.str "v")] [] "b" Op.contains
    (Value.str "w") none none none none [] true 0 (by decide) (Or.inl rfl)
  simpa using h

/-- `natDigitsGo` prepends a non-empty block of decimal digits when given
sufficient fuel. -/
lemma natDigitsGo_spec (fuel : Nat) : ∀ (n : Nat) (acc : List Char), n < fuel →
    ∃ d, natDigitsGo fuel n acc = d ++ acc ∧ d ≠ [] ∧
      ∀ c ∈ d, c.isDigit = true := by
  induction fuel with
  | zero => intro n acc h; omega
  | succ fuel ih =>
    intro n acc h
    have hd : (Char.ofNat (48 + n % 10)).isDigit = true := by
      have h10 : n % 10 < 10 := Nat.mod_lt _ (by norm_num)
      set m := n % 10 with hm
      interval_cases m <;> decide
    by_cases hlt : n < 10
    · exact ⟨[Char.ofNat (48 + n % 10)], by simp [natDigitsGo, hlt], by simp,
        by simpa using hd⟩
    · have hn10 : n / 10 < fuel := by
        have := Nat.div_lt_self (show 0 < n by omega) (show 1 < 10 by norm_num)
        omega
      obtain ⟨d, hgo, hne, hdig⟩ := ih (n / 10) (Char.ofNat (48 + n % 10) :: acc) hn10
      refine ⟨d ++ [Char.ofNat (48 + n % 10)], ?_, by simp, ?_⟩
      · simp [natDigitsGo, hlt, hgo]
      · intro c hc
        rcases List.mem_append.mp hc with h1 | h1
        · exact hdig c h1
        · simp only [List.mem_singleton] at h1
          subst h1
          exact hd

/-- The decimal digit list of a number is non-empty and all digits. -/
lemma natDigits_spec (n : Nat) :
    natDigits n ≠ [] ∧ ∀ c ∈ natDigits n, c.isDigit = true := by
  obtain ⟨d, hgo, hne, hdig⟩ := natDigitsGo_spec (n + 1) n [] (by omega)
  unfold natDigits
  rw [hgo]
  simp only [List.append_nil]
  exact ⟨hne, hdig⟩

/-- Every character surviving the strip pass is alphanumeric or the NUL
separator. -/
lemma stripGo_chars (l : List Char) : ∀ (b : Bool) (c : Char),
    c ∈ stripGo b l → isAlnumA c = true ∨ c = nulC := by
  induction l with
  | nil => simp [stripGo]
  | cons x t ih =>
    intro b c hc
    by_cases hx : isAlnumA x
    · simp only [stripGo, hx, if_true, List.mem_cons] at hc
      rcases hc with rfl | hc
      · exact Or.inl hx
      · exact ih false c hc
    · cases b with
      | true =>
        simp only [stripGo, hx, if_false, if_true, Bool.false_eq_true] at hc
        exact ih true c hc
      | false =>
        simp only [stripGo, hx, if_false, Bool.false_eq_true, List.mem_cons] at hc
        rcases hc with rfl | hc
        · exact Or.inr rfl
        · exact ih true c hc

/-- Characters of the NUL-trimmed list come from the original list. -/
lemma mem_trimNul (c : Char) (l : List Char) (h : c ∈ trimNul l) : c ∈ l := by
  unfold trimNul at h
  have h1 := List.mem_reverse.mp h
  have h2 := (List.dropWhile_sublist _).subset h1
  have h3 := List.mem_reverse.mp h2
  exact (List.dropWhile_sublist _).subset h3

/-- Characters of any `splitOnC` piece come from the split list. -/
lemma mem_splitOnC (sep : Char) (l : List Char) : ∀ p ∈ splitOnC sep l,
    ∀ c ∈ p, c ∈ l := by
  induction l with
  | nil =>
    intro p hp c hc
    simp only [splitOnC, List.mem_singleton] at hp
    subst hp
    simp at hc
  | cons x t ih =>
    intro p hp c hc
    rcases hs : splitOnC sep t with _ | ⟨q, qs⟩
    · exact absurd hs (splitOnC_ne_nil sep t)
    · rw [splitOnC, hs] at hp
      by_cases hx : x = sep
      · simp only [hx, if_true, List.mem_cons] at hp
        rcases hp with rfl | rfl | hp
        · simp at hc
        · exact List.mem_cons_of_mem _ (ih _ (hs ▸ List.mem_cons_self _ _) c hc)
        · exact List.mem_cons_of_mem _
            (ih p (hs ▸ List.mem_cons_of_mem _ hp) c hc)
      · simp only [hx, if_false, List.mem_cons] at hp
        rcases hp with rfl | hp
        · rcases List.mem_cons.mp hc with rfl | hc'
          · exact List.mem_cons_self _ _
          · exact List.mem_cons_of_mem _
              (ih q (hs ▸ List.mem_cons_self q qs) c hc')
        · exact List.mem_cons_of_mem _
            (ih p (hs ▸ List.mem_cons_of_mem q hp) c hc)

/-- Characters of a `joinC` join are the separator or come from a piece. -/
lemma mem_joinC (sep : Char) (ps : List (List Char)) (c : Char)
    (hc : c ∈ joinC sep ps) : c = sep ∨ ∃ p ∈ ps, c ∈ p := by
  induction ps with
  | nil => simp [joinC] at hc
  | cons x t ih =>
    cases t with
    | nil =>
      simp only [joinC] at hc
      exact Or.inr ⟨x, by simp, hc⟩
    | cons y t' =>
      rw [joinC] at hc
      rcases List.mem_append.mp hc with h1 | h1
      · exact Or.inr ⟨x, by simp, h1⟩
      · rcases List.mem_cons.mp h1 with rfl | h2
        · exact Or.inl rfl
        · rcases ih h2 with h3 | ⟨p, hp, hcp⟩
          · exact Or.inl h3
          · exact Or.inr ⟨p, List.mem_cons_of_mem _ hp, hcp⟩

/-- `lowerA` maps nothing but `$` to `$`. -/
lemma lowerA_dollar (d : Char) (h : lowerA d = '$') : d = '$' := by
  revert h
  unfold lowerA
  split <;> (intro h; first | exact absurd h (by decide) | exact h)

/-- `snakeCase` output never contains a `$` character: the strip pass keeps
only alphanumerics and NULs, and the join adds only underscores. -/
lemma snakeChars_no_dollar (l : List Char) : '$' ∉ snakeChars l := by
  intro hc
  unfold snakeChars at hc
  rcases mem_joinC _ _ _ hc with h | ⟨p, hp, hcp⟩
  · exact absurd h (by decide)
  · rcases List.mem_map.mp hp with ⟨q, hq, rfl⟩
    rcases List.mem_map.mp hcp with ⟨d, hd, hld⟩
    have hd' : d = '$' := lowerA_dollar d hld
    subst hd'
    have h1 : '$' ∈ trimNul (stripGo false (pass2 (pass1 l))) :=
      mem_splitOnC _ _ q hq '$' hd
    have h2 : '$' ∈ stripGo false (pass2 (pass1 l)) := mem_trimNul _ _ h1
    rcases stripGo_chars _ false '$' h2 with h3 | h3
    · exact absurd h3 (by decide)
    · exact absurd h3 (by decide)

/-- String-level corollary of `snakeChars_no_dollar`. -/
lemma snakeCase_no_dollar (s : String) : '$' ∉ (snakeCase s).data :=
  snakeChars_no_dollar s.data

/-- The placeholder scan distributes over append when the right part does
not begin with a digit (so no digit run can leak across the seam). -/
lemma scan_append (y : List Char) (hy : (y.headD ' ').isDigit = false) :
    ∀ (x : List Char) (st : Option (List Char)),
      scanGo st (x ++ y) = scanGo st x ++ scanGo none y := by
  intro x
  induction x with
  | nil =>
    intro st
    rcases st with _ | run
    · simp [scanGo]
    · rcases y with _ | ⟨c, t⟩
      · simp [scanGo]
      · have hc : c.isDigit = false := by simpa using hy
        simp [scanGo, hc]
  | cons c xs ih =>
    intro st
    rcases st with _ | run
    · by_cases hc : c = '$'
      · simp [scanGo, hc, ih]
      · simp [scanGo, hc, ih]
    · by_cases hd : c.isDigit
      · simp [scanGo, hd, ih]
      · by_cases hc : c = '$'
        · simp [scanGo, hd, hc, ih, List.append_assoc]
        · simp [scanGo, hd, hc, ih, List.append_assoc]

/-- A `$`-free prefix contributes nothing to the scan. -/
lemma scan_noDollar (x y : List Char) (hx : ∀ c ∈ x, c ≠ '$') :
    scanGo none (x ++ y) = scanGo none y := by
  induction x with
  | nil => simp
  | cons c xs ih =>
    have hc : ¬c = '$' := hx c (by simp)
    simp only [List.cons_append, scanGo, hc, if_false]
    exact ih (fun d hd => hx d (by simp [hd]))

/-- A `$`-free list scans to nothing. -/
lemma scanGo_none_nil (x : List Char) (hx : ∀ c ∈ x, c ≠ '$') :
    scanGo none x = [] := by
  have h := scan_noDollar x [] hx
  simpa using h

/-- Reading a digit block after a `$` collects exactly that block. -/
lemma scan_digits (y : List Char) (hy : (y.headD ' ').isDigit = false) :
    ∀ (d run : List Char), (∀ c ∈ d, c.isDigit = true) → (run ≠ [] ∨ d ≠ []) →
      scanGo (some run) (d ++ y) = (run.reverse ++ d) :: scanGo none y := by
  intro d
  induction d with
  | nil =>
    intro run _ hne
    have hrun : run ≠ [] := by tauto
    rcases y with _ | ⟨c, t⟩
    · simp [scanGo, hrun]
    · have hc : c.isDigit = false := by simpa using hy
      simp [scanGo, hc, hrun]
  | cons c d' ih =>
    intro run hdig _
    have hc : c.isDigit = true := hdig c (by simp)
    simp only [List.cons_append, scanGo, hc, if_true, List.append_eq]
    rw [ih (c :: run) (fun e he => hdig e (by simp [he])) (Or.inl (by simp))]
    simp

/-- The scan of a fragment made of a `$`-free prefix, one placeholder, and a
`$`-free non-digit-leading tail is exactly the placeholder's digit block. -/
lemma scan_value_frag (pre tail : List Char) (k : Nat)
    (hpre : ∀ c ∈ pre, c ≠ '$') (htail : ∀ c ∈ tail, c ≠ '$')
    (hhead : (tail.headD ' ').isDigit = false) :
    scanGo none (pre ++ '$' :: (natDigits k ++ tail)) = [natDigits k] := by
  rw [scan_noDollar pre _ hpre]
  have h1 : scanGo none ('$' :: (natDigits k ++ tail)) =
      scanGo (some []) (natDigits k ++ tail) := by simp [scanGo]
  rw [h1, scan_digits tail hhead (natDigits k) [] (natDigits_spec k).2
    (Or.inr (natDigits_spec k).1)]
  rw [scanGo_none_nil tail htail]
  simp

/-- The parameter values collected by `render` do not depend on the
placeholder offset or the value count. -/
lemma render_snd_indep (toks : List Token) : ∀ (off n off' n' : Nat),
    (render off n toks).2 = (render off' n' toks).2 := by
  induction toks with
  | nil => simp [render]
  | cons t rest ih =>
    intro off n off' n'
    cases t with
    | cond ct => simp only [render]; exact ih ..
    | lparen => simp only [render]; exact ih ..
    | rparen => simp only [render]; exact ih ..
    | leafTok tbl op f v =>
      by_cases h : op = Op.includes ∨ op = Op.excludes
      · simp only [render, if_pos h]
        exact congrArg (v :: ·) (ih ..)
      · rcases hm : operatorToMysql op with _ | sym
        · simp only [render, if_neg h, hm]
          exact ih ..
        · simp only [render, if_neg h, hm]
          exact congrArg (v :: ·) (ih ..)

/-- `render` collects one value per recognized leaf token. -/
lemma render_snd_length (off n : Nat) (toks : List Token) :
    (render off n toks).2.length = countRec toks := by
  induction toks generalizing n with
  | nil => simp [render, countRec]
  | cons t rest ih =>
    cases t with
    | cond ct => simp [render, countRec, List.countP_cons, ih]
    | lparen => simp [render, countRec, List.countP_cons, ih]
    | rparen => simp [render, countRec, List.countP_cons, ih]
    | leafTok tbl op f v =>
      by_cases h : op = Op.includes ∨ op = Op.excludes
      · have hr : recognizedB op = true := by
          rcases h with rfl | rfl <;> decide
        simp [render, h, countRec, List.countP_cons, hr, ih]
      · rcases hm : operatorToMysql op with _ | sym
        · have hr : recognizedB op = false := by
            simp [recognizedB, hm]
            rcases op <;> simp_all [operatorToMysql]
          simp [render, h, hm, countRec, List.countP_cons, hr, ih]
        · have hr : recognizedB op = true := by
            simp [recognizedB, hm]
          simp [render, h, hm, countRec, List.countP_cons, hr, ih]

/-- `scanCat` unfolding. -/
lemma scanCat_cons (f : String) (fs : List String) :
    scanCat (f :: fs) = scanGo none f.data ++ scanCat fs := by
  simp [scanCat]

/-- `$`-freedom is preserved by append. -/
lemma no_dollar_append (a b : List Char) (ha : ∀ c ∈ a, c ≠ '$')
    (hb : ∀ c ∈ b, c ≠ '$') : ∀ c ∈ a ++ b, c ≠ '$' := by
  intro c hc
  rcases List.mem_append.mp hc with h | h
  · exact ha c h
  · exact hb c h

/-- `$`-freedom of a concrete character list by evaluation. -/
lemma no_dollar_of_all (l : List Char)
    (hall : l.all (fun c => decide (c ≠ '$')) = true) : ∀ c ∈ l, c ≠ '$' := by
  intro c hc
  have h := List.all_eq_true.mp hall c hc
  simpa using h

/-- The SQL symbol of every mapped operator is `$`-free. -/
lemma operatorToMysql_no_dollar (op : Op) (sym : String)
    (h : operatorToMysql op = some sym) : ∀ c ∈ sym.data, c ≠ '$' := by
  cases op <;> simp only [operatorToMysql, Option.some.injEq,
    reduceCtorEq] at h <;> first
  | exact absurd h (by simp)
  | (subst h; decide)

/-- The table-qualifier text is `$`-free when the table part is. -/
lemma tableQual_no_dollar (tbl : Option String)
    (h : ∀ t, tbl = some t → '$' ∉ t.data) :
    ∀ c ∈ (tableQual tbl).data, c ≠ '$' := by
  rcases tbl with _ | t
  · intro c hc; simp [tableQual] at hc
  · by_cases ht : t = ""
    · intro c hc; simp [tableQual, ht] at hc
    · intro c hc
      simp only [tableQual, ht, if_false] at hc
      have hq : ("\"" ++ t ++ "\".").data = '"' :: (t.data ++ ['"', '.']) := by
        simp [String.data_append]
      rw [hq] at hc
      rcases List.mem_cons.mp hc with rfl | hc'
      · decide
      · rcases List.mem_append.mp hc' with h1 | h1
        · intro he; exact h t rfl (he ▸ h1)
        · rcases List.mem_cons.mp h1 with rfl | h2
          · decide
          · simp only [List.mem_singleton] at h2; subst h2; decide

/-- The full quoted-column text of a leaf fragment is `$`-free. -/
lemma column_no_dollar (tbl : Option String) (field : String)
    (h : ∀ t, tbl = some t → '$' ∉ t.data) :
    ∀ c ∈ (tableQual tbl ++ "\"" ++ snakeCase field ++ "\"").data, c ≠ '$' := by
  have h1 := tableQual_no_dollar tbl h
  intro c hc
  simp only [String.data_append] at hc
  rcases List.mem_append.mp hc with hc' | hc'
  · rcases List.mem_append.mp hc' with hc'' | hc''
    · rcases List.mem_append.mp hc'' with h2 | h2
      · exact h1 c h2
      · simp only [show ("\"" : String).data = ['"'] from rfl,
          List.mem_singleton] at h2
        subst h2; decide
    · intro he
      exact snakeCase_no_dollar field (he ▸ hc'')
  · simp only [show ("\"" : String).data = ['"'] from rfl,
      List.mem_singleton] at hc'
    subst hc'; decide

/-- The central fragment characterization: under clean tokens, every emitted
fragment is non-empty and does not start with a digit, and the concatenated
placeholder scans of the fragments are exactly the decimal digit blocks of
`off + n + 1, off + n + 2, …`, one per recognized leaf. -/
lemma render_scan (toks : List Token) : ∀ (off n : Nat), toksClean toks →
    (∀ f ∈ (render off n toks).1.filterMap id,
      f.data ≠ [] ∧ (f.data.headD ' ').isDigit = false) ∧
    scanCat ((render off n toks).1.filterMap id) =
      (List.range' (off + n + 1) (countRec toks)).map natDigits := by
  induction toks with
  | nil => intro off n _; simp [render, scanCat, countRec]
  | cons t rest ih =>
    intro off n hc
    have hcr : toksClean rest := fun x hx => hc x (List.mem_cons_of_mem _ hx)
    cases t with
    | lparen =>
      obtain ⟨ihh, ihs⟩ := ih off n hcr
      have hfm : (render off n (Token.lparen :: rest)).1.filterMap id =
          "(" :: (render off n rest).1.filterMap id := by simp [render]
      have hcount : countRec (Token.lparen :: rest) = countRec rest := by
        simp [countRec, List.countP_cons]
      rw [hfm, hcount]
      refine ⟨?_, ?_⟩
      · intro f hf
        rcases List.mem_cons.mp hf with rfl | hf'
        · exact ⟨by decide, by decide⟩
        · exact ihh f hf'
      · rw [scanCat_cons, show scanGo none ("(").data = [] by decide]
        have hval : (render off n (Token.lparen :: rest)).2 =
            (render off n rest).2 := by simp [render]
        simpa using ihs
    | rparen =>
      obtain ⟨ihh, ihs⟩ := ih off n hcr
      have hfm : (render off n (Token.rparen :: rest)).1.filterMap id =
          ")" :: (render off n rest).1.filterMap id := by simp [render]
      have hcount : countRec (Token.rparen :: rest) = countRec rest := by
        simp [countRec, List.countP_cons]
      rw [hfm, hcount]
      refine ⟨?_, ?_⟩
      · intro f hf
        rcases List.mem_cons.mp hf with rfl | hf'
        · exact ⟨by decide, by decide⟩
        · exact ihh f hf'
      · rw [scanCat_cons, show scanGo none (")").data = [] by decide]
        simpa using ihs
    | cond ct =>
      obtain ⟨ihh, ihs⟩ := ih off n hcr
      have hfm : (render off n (Token.cond ct :: rest)).1.filterMap id =
          ct.text :: (render off n rest).1.filterMap id := by simp [render]
      have hcount : countRec (Token.cond ct :: rest) = countRec rest := by
        simp [countRec, List.countP_cons]
      rw [hfm, hcount]
      refine ⟨?_, ?_⟩
      · intro f hf
        rcases List.mem_cons.mp hf with rfl | hf'
        · cases ct <;> exact ⟨by decide, by decide⟩
        · exact ihh f hf'
      · rw [scanCat_cons]
        have hsc : scanGo none ct.text.data = [] := by
          cases ct <;> decide
        rw [hsc]
        simpa using ihs
    | leafTok tbl op f v =>
      have htbl : recognizedB op = true → ∀ t, tbl = some t → '$' ∉ t.data := by
        intro hr t ht
        have hcm := hc (Token.leafTok tbl op f v) (List.mem_cons_self _ _)
        subst ht
        exact hcm hr
      by_cases h : op = Op.includes ∨ op = Op.excludes
      · have hr : recognizedB op = true := by rcases h with rfl | rfl <;> decide
        obtain ⟨ihh, ihs⟩ := ih off (n + 1) hcr
        have hcount : countRec (Token.leafTok tbl op f v :: rest) =
            countRec rest + 1 := by
          simp [countRec, List.countP_cons, hr]
        rw [hcount]
        obtain ⟨sep, hsepif, hsepdata⟩ : ∃ sep : String,
            (if op = Op.includes then " = " else " != ") = sep ∧
            (sep = " = " ∨ sep = " != ") := by
          by_cases hoi : op = Op.includes
          · exact ⟨" = ", by simp [hoi], Or.inl rfl⟩
          · exact ⟨" != ", by simp [hoi], Or.inr rfl⟩
        have hfm : (render off n (Token.leafTok tbl op f v :: rest)).1.filterMap id =
            (" $" ++ natRepr (off + (n + 1)) ++ sep ++ "ANY (" ++
              tableQual tbl ++ "\"" ++ snakeCase f ++ "\")") ::
            (render off (n + 1) rest).1.filterMap id := by
          simp [render, h, hsepif]
        rw [hfm]
        have htailnd : ∀ c ∈ (sep ++ "ANY (" ++ tableQual tbl ++ "\"" ++
            snakeCase f ++ "\")").data, c ≠ '$' := by
          intro c hcm
          simp only [String.data_append] at hcm
          rcases List.mem_append.mp hcm with h1 | h1
          · rcases List.mem_append.mp h1 with h2 | h2
            · rcases List.mem_append.mp h2 with h3 | h3
              · rcases List.mem_append.mp h3 with h4 | h4
                · rcases List.mem_append.mp h4 with h5 | h5
                  · rcases hsepdata with rfl | rfl
                    · exact no_dollar_of_all _ (by decide) c h5
                    · exact no_dollar_of_all _ (by decide) c h5
                  · exact no_dollar_of_all _ (by decide) c h5
                · exact tableQual_no_dollar tbl (htbl hr) c h4
              · exact no_dollar_of_all _ (by decide) c h3
            · intro he
              exact snakeCase_no_dollar f (he ▸ h2)
          · exact no_dollar_of_all _ (by decide) c h1
        have hdecomp : (" $" ++ natRepr (off + (n + 1)) ++ sep ++ "ANY (" ++
            tableQual tbl ++ "\"" ++ snakeCase f ++ "\")").data =
            [' '] ++ '$' :: (natDigits (off + (n + 1)) ++ (sep ++ "ANY (" ++
              tableQual tbl ++ "\"" ++ snakeCase f ++ "\")").data) := by
          simp [String.data_append, natRepr, List.append_assoc]
        have hheadD : (((sep ++ "ANY (" ++ tableQual tbl ++ "\"" ++
            snakeCase f ++ "\")").data).headD ' ').isDigit = false := by
          rcases hsepdata with rfl | rfl <;> simp [String.data_append]
        have hscan : scanGo none (" $" ++ natRepr (off + (n + 1)) ++ sep ++
            "ANY (" ++ tableQual tbl ++ "\"" ++ snakeCase f ++ "\")").data =
            [natDigits (off + (n + 1))] := by
          rw [hdecomp]
          exact scan_value_frag [' '] _ _ (by decide) htailnd hheadD
        refine ⟨?_, ?_⟩
        · intro g hg
          rcases List.mem_cons.mp hg with rfl | hg'
          · refine ⟨?_, ?_⟩
            · rw [hdecomp]; simp
            · rw [hdecomp]; simp
          · exact ihh g hg'
        · rw [scanCat_cons, hscan, ihs]
          rw [List.range'_succ]
          simp only [List.map_cons]
          have he1 : off + (n + 1) = off + n + 1 := by omega
          rw [he1]
          simp
      · rcases hm : operatorToMysql op with _ | sym
        · obtain ⟨ihh, ihs⟩ := ih off n hcr
          have hr : recognizedB op = false := by
            rcases op <;> first
            | (exact absurd hm (by decide))
            | decide
            | (exact absurd h (by decide))
          have hcount : countRec (Token.leafTok tbl op f v :: rest) =
              countRec rest := by
            simp [countRec, List.countP_cons, hr]
          have hfm : (render off n (Token.leafTok tbl op f v :: rest)).1.filterMap id =
              (render off n rest).1.filterMap id := by
            simp [render, h, hm]
          rw [hfm, hcount]
          exact ⟨ihh, ihs⟩
        · have hr : recognizedB op = true := by simp [recognizedB, hm]
          obtain ⟨ihh, ihs⟩ := ih off (n + 1) hcr
          have hcount : countRec (Token.leafTok tbl op f v :: rest) =
              countRec rest + 1 := by
            simp [countRec, List.countP_cons, hr]
          rw [hcount]
          have hfm : (render off n (Token.leafTok tbl op f v :: rest)).1.filterMap id =
              (" " ++ (tableQual tbl ++ "\"" ++ snakeCase f ++ "\"") ++ " " ++
                sym ++ " $" ++ natRepr (off + (n + 1))) ::
              (render off (n + 1) rest).1.filterMap id := by
            simp [render, h, hm]
          rw [hfm]
          have hpre : ∀ c ∈ (" " ++ (tableQual tbl ++ "\"" ++ snakeCase f ++
              "\"") ++ " " ++ sym ++ " ").data, c ≠ '$' := by
            intro c hcm
            simp only [String.data_append] at hcm
            rcases List.mem_append.mp hcm with h1 | h1
            · rcases List.mem_append.mp h1 with h2 | h2
              · rcases List.mem_append.mp h2 with h3 | h3
                · rcases List.mem_append.mp h3 with h4 | h4
                  · exact no_dollar_of_all _ (by decide) c h4
                  · -- c ∈ (tableQual tbl ++ "\"" ++ snakeCase f ++ "\"").data
                    have hcol := column_no_dollar tbl f (htbl hr)
                    apply hcol
                    simpa [String.data_append] using h4
                · exact no_dollar_of_all _ (by decide) c h3
              · exact operatorToMysql_no_dollar op sym hm c h2
            · exact no_dollar_of_all _ (by decide) c h1
          have hdecomp : (" " ++ (tableQual tbl ++ "\"" ++ snakeCase f ++
              "\"") ++ " " ++ sym ++ " $" ++ natRepr (off + (n + 1))).data =
              (" " ++ (tableQual tbl ++ "\"" ++ snakeCase f ++ "\"") ++ " " ++
                sym ++ " ").data ++ '$' :: (natDigits (off + (n + 1)) ++ []) := by
            simp [String.data_append, natRepr, List.append_assoc]
          have hscan : scanGo none (" " ++ (tableQual tbl ++ "\"" ++
              snakeCase f ++ "\"") ++ " " ++ sym ++ " $" ++
              natRepr (off + (n + 1))).data = [natDigits (off + (n + 1))] := by
            rw [hdecomp]
            exact scan_value_frag _ _ _ hpre (by simp) (by decide)
          refine ⟨?_, ?_⟩
          · intro g hg
            rcases List.mem_cons.mp hg with rfl | hg'
            · refine ⟨?_, ?_⟩
              · rw [hdecomp]; simp [String.data_append]
              · rw [hdecomp]; simp [String.data_append]
            · exact ihh g hg'
          · rw [scanCat_cons, hscan, ihs]
            rw [List.range'_succ]
            simp only [List.map_cons]
            have he1 : off + (n + 1) = off + n + 1 := by omega
            rw [he1]
            simp

/-- Scanning the space-joined fragments equals the concatenation of the
per-fragment scans, because every fragment is non-empty and starts with a
non-digit. -/
lemma scan_joinWith (frags : List String)
    (h : ∀ f ∈ frags, f.data ≠ [] ∧ (f.data.headD ' ').isDigit = false) :
    scanGo none (joinWith " " frags).data = scanCat frags := by
  induction frags with
  | nil => rfl
  | cons x t ih =>
    cases t with
    | nil => simp [joinWith, scanCat]
    | cons y t' =>
      have hrest : ∀ f ∈ y :: t',
          f.data ≠ [] ∧ (f.data.headD ' ').isDigit = false :=
        fun f hf => h f (by simp [hf])
      have hjoin : (joinWith " " (x :: y :: t')).data =
          x.data ++ (' ' :: (joinWith " " (y :: t')).data) := by
        simp [joinWith, String.data_append]
      rw [hjoin]
      have hy : ((' ' :: (joinWith " " (y :: t')).data).headD ' ').isDigit
          = false := by
        rw [List.headD_cons]; decide
      rw [scan_append _ hy x.data none]
      have hsp : scanGo none (' ' :: (joinWith " " (y :: t')).data) =
          scanGo none (joinWith " " (y :: t')).data := by
        simp [scanGo]
      rw [hsp, ih hrest]
      simp [scanCat_cons]

/-- Characters survive `stripTrailingS`. -/
lemma mem_stripTrailingS (s : String) (c : Char)
    (h : c ∈ (stripTrailingS s).data) : c ∈ s.data := by
  unfold stripTrailingS at h
  split at h
  · exact (List.dropLast_sublist _).subset h
  · exact h

/-- The bare condition-type tokens are always clean. -/
lemma condToks_clean (e : FilterNode) : toksClean (condToks e) := by
  intro t ht
  unfold condToks at ht
  rcases hct : e.condType with _ | c
  · rw [hct] at ht; simp at ht
  · rw [hct] at ht
    simp only [List.mem_singleton] at ht
    subst ht
    trivial

/-- A leaf's token is clean when its field has no `$`. -/
lemma leafTokOf_clean (field : String) (op : Op) (v : Value)
    (hf : field.data.all (fun c => decide (c ≠ '$')) = true) :
    toksClean [leafTokOf field op v] := by
  intro t ht
  simp only [List.mem_singleton] at ht
  subst ht
  unfold leafTokOf
  by_cases hp : (splitDot field).length = 1
  · simp [hp]
  · simp only [hp, if_false]
    intro _ hd
    rcases hsp : splitOnC '.' field.data with _ | ⟨q, qs⟩
    · exact absurd hsp (splitOnC_ne_nil '.' field.data)
    · have hhead : (splitDot field).headD "" = (⟨q⟩ : String) := by
        simp [splitDot, hsp]
      rw [hhead] at hd
      have h1 : '$' ∈ q := mem_stripTrailingS _ _ hd
      have h2 : '$' ∈ field.data :=
        mem_splitOnC '.' field.data q (hsp ▸ List.mem_cons_self q qs) '$' h1
      have h3 := List.all_eq_true.mp hf '$' h2
      simp at h3

/-- A leaf token carrying the unhandled `contains` operator is clean
whatever its field: its fragment is never emitted. -/
lemma contains_leafTok_clean (field : String) (v : Value) :
    toksClean [leafTokOf field Op.contains v] := by
  intro t ht
  simp only [List.mem_singleton] at ht
  subst ht
  unfold leafTokOf
  by_cases hp : (splitDot field).length = 1
  · simp [hp]
  · simp only [hp, if_false]
    intro hr
    exact absurd hr (by decide)

/-- `toksClean` respects append. -/
lemma toksClean_append (a b : List Token) (ha : toksClean a)
    (hb : toksClean b) : toksClean (a ++ b) := by
  intro t ht
  rcases List.mem_append.mp ht with h | h
  · exact ha t h
  · exact hb t h

/-- The grouping parentheses around flattened children stay clean. -/
lemma group_toks_clean (inner : List Token) (hi : toksClean inner) :
    toksClean (Token.lparen :: (inner ++ [Token.rparen])) := by
  intro t ht
  rcases List.mem_cons.mp ht with rfl | ht'
  · trivial
  · rcases List.mem_append.mp ht' with h1 | h1
    · exact hi t h1
    · simp only [List.mem_singleton] at h1
      subst h1
      trivial

/-- The flattening of a `$`-free filter tree yields clean tokens. -/
lemma manageFilters_clean (l : List FilterNode)
    (h : nodesNoDollar l = true) : toksClean (manageFilters l) := by
  induction l using manageFilters.induct with
  | case1 => intro t ht; simp [manageFilters] at ht
  | case2 e rest iha ihr =>
    cases e with
    | leaf ct field op v =>
      simp only [nodesNoDollar, Bool.and_eq_true] at h
      have hg : manageFilters (FilterNode.leaf ct field op v :: rest) =
          (condToks (FilterNode.leaf ct field op v) ++
            [leafTokOf field op v]) ++ manageFilters rest := by
        simp [manageFilters]
      rw [hg]
      exact toksClean_append _ _
        (toksClean_append _ _ (condToks_clean _) (leafTokOf_clean _ _ _ h.1))
        (ihr h.2)
    | group ct exprs =>
      simp only [nodesNoDollar, Bool.and_eq_true] at h
      have hg : manageFilters (FilterNode.group ct exprs :: rest) =
          (condToks (FilterNode.group ct exprs) ++
            (Token.lparen :: (manageFilters exprs ++ [Token.rparen]))) ++
          manageFilters rest := by
        simp [manageFilters]
      rw [hg]
      exact toksClean_append _ _
        (toksClean_append _ _ (condToks_clean _)
          (group_toks_clean _ (iha h.1)))
        (ihr h.2)

/-- Flattening leaves that all carry the unhandled `contains` operator
yields clean tokens: their table parts are never rendered. -/
lemma contains_leaves_clean (ls : List FilterNode)
    (h : ∀ e ∈ ls, ∃ ct f v, e = FilterNode.leaf ct f Op.contains v) :
    toksClean (manageFilters ls) := by
  induction ls with
  | nil => intro t ht; simp [manageFilters] at ht
  | cons e rest ih =>
    obtain ⟨ct, f, v, rfl⟩ := h e (by simp)
    have hg : manageFilters (FilterNode.leaf ct f Op.contains v :: rest) =
        (condToks (FilterNode.leaf ct f Op.contains v) ++
          [leafTokOf f Op.contains v]) ++ manageFilters rest := by
      simp [manageFilters]
    rw [hg]
    exact toksClean_append _ _
      (toksClean_append _ _ (condToks_clean _) (contains_leafTok_clean _ _))
      (ih (fun e he => h e (by simp [he])))

/-- The synthetic free-text group flattens to clean tokens. -/
lemma freeText_group_clean (fts : List String) (gct : Option CondType)
    (ftv : String) :
    toksClean (manageFilters [FilterNode.group gct (fts.enum.map (fun p =>
      FilterNode.leaf (if p.1 = 0 then none else some CondType.or) p.2
        Op.contains (Value.str ftv)))]) := by
  have hinner : toksClean (manageFilters (fts.enum.map (fun p =>
      FilterNode.leaf (if p.1 = 0 then none else some CondType.or) p.2
        Op.contains (Value.str ftv)))) := by
    apply contains_leaves_clean
    intro e he
    rcases List.mem_map.mp he with ⟨p, _, rfl⟩
    exact ⟨_, _, _, rfl⟩
  have hg : manageFilters [FilterNode.group gct (fts.enum.map (fun p =>
      FilterNode.leaf (if p.1 = 0 then none else some CondType.or) p.2
        Op.contains (Value.str ftv)))] =
      condToks (FilterNode.group gct (fts.enum.map (fun p =>
        FilterNode.leaf (if p.1 = 0 then none else some CondType.or) p.2
          Op.contains (Value.str ftv)))) ++
      (Token.lparen :: (manageFilters (fts.enum.map (fun p =>
        FilterNode.leaf (if p.1 = 0 then none else some CondType.or) p.2
          Op.contains (Value.str ftv))) ++ [Token.rparen])) := by
    simp [manageFilters]
  rw [hg]
  exact toksClean_append _ _ (condToks_clean _) (group_toks_clean _ hinner)

/-- The tokens `createFilters` works on are clean whenever the explicit
filter tree is `$`-free (the free-text leaves need no condition — their
`contains` operator is unrecognized, so their fragments are never
emitted). -/
lemma cleanFiltersOf_clean (data : BulkFilter) (fts : List String)
    (h : nodesNoDollar (data.filters.getD []) = true) :
    toksClean (cleanFiltersOf data fts) := by
  unfold cleanFiltersOf
  rcases data.freeText with _ | ftv
  · exact manageFilters_clean _ h
  · by_cases htrim : jsTrim ftv = ""
    · simp only [htrim, ne_eq, not_true_eq_false, if_false]
      exact manageFilters_clean _ h
    · simp only [htrim, ne_eq, not_false_eq_true, if_true]
      rw [manageFilters_append]
      apply toksClean_append
      · apply manageFilters_clean
        rcases hdf : data.filters with _ | fs
        · simp [nodesNoDollar]
        · rw [hdf] at h
          simp only [Option.getD_some] at h
          by_cases hlen : fs.length > 0
          · simpa [hlen] using h
          · simp only [hlen, if_false]
            simp [nodesNoDollar]
      · rcases hdf : data.filters with _ | fs
        · exact freeText_group_clean fts _ ftv
        · exact freeText_group_clean fts _ ftv

/-- C1: for every `BulkFilter` whose explicit leaf fields contain no `$`
character and every non-negative `valueOffset` `N`, the clause text returned
by `createFilters` contains exactly `filterValues.length` placeholder
tokens, numbered contiguously `N+1, N+2, …` in emission order (so the
placeholder numbered `i` binds `filterValues[i-1-N]`), and changing the
offset from `0` to `N` shifts the numbers while leaving the parameter-value
sequence itself unchanged. -/
theorem createFilters_placeholder_invariant (data : BulkFilter)
    (fts : List String) (iw : Bool) (N : Nat)
    (h : nodesNoDollar (data.filters.getD []) = true) :
    (createFilters data fts iw N).filterValues =
      (createFilters data fts iw 0).filterValues ∧
    scanPh (createFilters data fts iw N).filter =
      (List.range' (N + 1)
        ((createFilters data fts iw N).filterValues.length)).map natDigits ∧
    scanPh (createFilters data fts iw 0).filter =
      (List.range' 1
        ((createFilters data fts iw 0).filterValues.length)).map natDigits := by
  have hclean := cleanFiltersOf_clean data fts h
  have main : ∀ M : Nat, scanPh (createFilters data fts iw M).filter =
      (List.range' (M + 1)
        ((createFilters data fts iw M).filterValues.length)).map natDigits := by
    intro M
    have hval : (createFilters data fts iw M).filterValues =
        (render M 0 (cleanFiltersOf data fts)).2 := rfl
    have hfil : (createFilters data fts iw M).filter =
        (assembleFilter (cleanFiltersOf data fts) iw M).1 := rfl
    obtain ⟨hheads, hscan⟩ := render_scan (cleanFiltersOf data fts) M 0 hclean
    rw [hval, hfil, assembleFilter_eq]
    dsimp only
    by_cases hguard : (cleanFiltersOf data fts).length > 0 ∧
        ((render M 0 (cleanFiltersOf data fts)).1.filterMap id).length > 0
    · rw [if_pos hguard]
      have hW : ∀ c ∈ (if iw then "WHERE " else "").data, c ≠ '$' := by
        split <;> exact no_dollar_of_all _ (by decide)
      unfold scanPh
      rw [String.data_append, scan_noDollar _ _ hW, scan_joinWith _ hheads,
        hscan, render_snd_length]
    · rw [if_neg hguard]
      have hlen0 : (render M 0 (cleanFiltersOf data fts)).2.length = 0 := by
        rcases not_and_or.mp hguard with hg | hg
        · have ht0 : (cleanFiltersOf data fts).length = 0 := by omega
          have htn : cleanFiltersOf data fts = [] :=
            List.eq_nil_of_length_eq_zero ht0
          rw [htn]
          simp [render]
        · have hf0 : ((render M 0 (cleanFiltersOf data fts)).1.filterMap
              id).length = 0 := by omega
          have hfn : (render M 0 (cleanFiltersOf data fts)).1.filterMap id =
              [] := List.eq_nil_of_length_eq_zero hf0
          have hlens := congrArg List.length hscan
          rw [hfn] at hlens
          simp only [scanCat, List.map_nil, List.flatten_nil,
            List.length_nil, List.length_map, List.length_range'] at hlens
          rw [render_snd_length]
          omega
      rw [hlen0]
      simp [scanPh, scanGo]
  refine ⟨?_, main N, main 0⟩
  exact render_snd_indep _ N 0 0 0

/-- Witness for `createFilters_placeholder_invariant` at a concrete filter
list and offset `5`. -/
theorem createFilters_placeholder_invariant_witness :
    ((createFilters { filters := some [FilterNode.leaf none "a" Op.eq
        (Value.str "x"), FilterNode.leaf (some CondType.and) "pets.b"
        Op.includes (Value.str "y")] } [] true 5).filterValues =
      (createFilters { filters := some [FilterNode.leaf none "a" Op.eq
        (Value.str "x"), FilterNode.leaf (some CondType.and) "pets.b"
        Op.includes (Value.str "y")] } [] true 0).filterValues) ∧
    scanPh (createFilters { filters := some [FilterNode.leaf none "a" Op.eq
        (Value.str "x"), FilterNode.leaf (some CondType.and) "pets.b"
        Op.includes (Value.str "y")] } [] true 5).filter =
      [['6'], ['7']] := by
  have h := createFilters_placeholder_invariant
    { filters := some [FilterNode.leaf none "a" Op.eq (Value.str "x"),
        FilterNode.leaf (some CondType.and) "pets.b" Op.includes
          (Value.str "y")] } [] true 5
    (by simp [nodesNoDollar])
  refine ⟨h.1, ?_⟩
  rw [h.2.1]
  have hv : (createFilters { filters := some [FilterNode.leaf none "a" Op.eq
      (Value.str "x"), FilterNode.leaf (some CondType.and) "pets.b"
      Op.includes (Value.str "y")] } [] true 5).filterValues =
      [Value.str "x", Value.str "y"] := by
    have hcf : cleanFiltersOf { filters := some [FilterNode.leaf none "a"
        Op.eq (Value.str "x"), FilterNode.leaf (some CondType.and) "pets.b"
        Op.includes (Value.str "y")] } [] =
        [Token.leafTok none Op.eq "a" (Value.str "x"), Token.cond CondType.and,
          Token.leafTok (some "pet") Op.includes "b" (Value.str "y")] := by
      simp [cleanFiltersOf, manageFilters, condToks, leafTokOf,
        FilterNode.condType, splitDot, splitOnC, stripTrailingS]
    simp only [createFilters, hcf]
    decide
  rw [hv]
  decide

/-- C5: `exactlyOneResult` returns the single element of a one-element row
list, and for any other length fails with exactly the caller-supplied error
value, never a synthesized one. -/
theorem exactlyOneResult_spec {α ε : Type} (res : List α) (err : ε) :
    (∀ a, res = [a] → exactlyOneResult res err = Except.ok a) ∧
    (res.length ≠ 1 → exactlyOneResult res err = Except.error err) := by
  constructor
  · rintro a rfl; rfl
  · intro h; unfold exactlyOneResult; rw [dif_neg h]

/-- Witness for `exactlyOneResult_spec`: one, zero and two rows. -/
theorem exactlyOneResult_spec_witness :
    exactlyOneResult [(3 : Nat)] "boom" = Except.ok 3 ∧
    exactlyOneResult ([] : List Nat) "boom" = Except.error "boom" ∧
    exactlyOneResult [(1 : Nat), 2] "boom" = Except.error "boom" :=
  ⟨(exactlyOneResult_spec _ _).1 3 rfl,
    (exactlyOneResult_spec _ _).2 (by decide),
    (exactlyOneResult_spec _ _).2 (by decide)⟩

end MysqlTyped
